import Mathlib

/-!
Shallow embedding of the `clisten` playback subsystem, translated from the
Rust sources: the playback queue (`src/player/queue.rs`), the metadata junk
filter and the decibel conversion (`src/player/ipc.rs`), and the player
spawn arguments (`src/player/mod.rs`). Theorems check the natural-language
specification's claims against these definitions.
-/

namespace Clisten

/-- Rust enum `DiscoveryItem` from `src/api/models.rs`: the tagged union of content the
discovery list and the queue can hold. Rust field names are kept; `end` is
renamed `end_ts` because `end` is a Lean keyword. -/
inductive DiscoveryItem where
  | NtsLiveChannel (channel : Nat) (show_name : String) (broadcast_title : String)
      (genres : List String) (start : String) (end_ts : String)
  | NtsEpisode (name : String) (show_alias : String) (episode_alias : String)
      (genres : List String) (location : Option String) (audio_url : Option String)
      (description : Option String)
  | NtsMixtape (title : String) (subtitle : String) (stream_url : String)
      (mixtape_alias : String)
  | NtsShow (name : String) (show_alias : String) (genres : List String)
      (location : Option String) (description : Option String)
  | DirectUrl (url : String) (title : Option String)
  | NtsGenre (name : String) (genre_id : String)
  deriving DecidableEq, Repr

/-- Modelled from the spec: `StreamMetadata` is used by `src/player/queue.rs`
(`use super::StreamMetadata`) but its definition is not among the provided
sources. Spec §3: "fields: `station_name?`, `title?`, `artist?`, `album?`
(each an optional string)". The queue treats it opaquely. -/
structure StreamMetadata where
  station_name : Option String := none
  title : Option String := none
  artist : Option String := none
  album : Option String := none
  deriving DecidableEq, Repr

/-- Rust struct `QueueItem` from `src/player/queue.rs`. -/
structure QueueItem where
  item : DiscoveryItem
  url : String
  stream_metadata : Option StreamMetadata
  deriving DecidableEq, Repr

/-- Rust struct `Queue` from `src/player/queue.rs`: ordered items plus an optional cursor. -/
structure Queue where
  items : List QueueItem
  current_index : Option Nat
  deriving DecidableEq, Repr

namespace Queue

/-- Constructor `Queue::new` / `Queue::default`. -/
def new : Queue := ⟨[], none⟩

/-- Operation `Queue::add`: push to the end; if the cursor was absent, set it to 0. -/
def add (q : Queue) (item : QueueItem) : Queue :=
  { items := q.items ++ [item]
    current_index := match q.current_index with
      | none => some 0
      | some i => some i }

/-- Operation `Queue::add_next`: insert right after the current position
(`map_or(0, |i| i + 1)`), then set the cursor to 0 if it was absent. -/
def add_next (q : Queue) (item : QueueItem) : Queue :=
  let pos := (q.current_index.map (· + 1)).getD 0
  { items := q.items.insertIdx pos item
    current_index := match q.current_index with
      | none => some 0
      | some i => some i }

/-- Operation `Queue::remove`: in range, delete the item, then fix the cursor
(None if now empty; decrement when `index <= curr && curr > 0`);
out of range, a no-op. -/
def remove (q : Queue) (index : Nat) : Queue :=
  if index < q.items.length then
    let items := q.items.eraseIdx index
    { items := items
      current_index :=
        if items.isEmpty then none
        else match q.current_index with
          | some curr => if index ≤ curr ∧ 0 < curr then some (curr - 1) else some curr
          | none => none }
  else q

/-- Operation `Queue::clear`. -/
def clear (_q : Queue) : Queue := ⟨[], none⟩

/-- Accessor `Queue::current`. -/
def current (q : Queue) : Option QueueItem :=
  q.current_index.bind fun i => q.items.get? i

/-- Operation `Queue::advance`: move forward when a next item exists; the returned
option is the Rust return value, the queue is the post-state. -/
def advance (q : Queue) : Option QueueItem × Queue :=
  match q.current_index with
  | some i =>
      if i + 1 < q.items.length then
        (q.items.get? (i + 1), { q with current_index := some (i + 1) })
      else (none, q)
  | none => (none, q)

/-- Operation `Queue::prev`: move backward when `i > 0`. -/
def prev (q : Queue) : Option QueueItem × Queue :=
  match q.current_index with
  | some i =>
      if 0 < i then
        (q.items.get? (i - 1), { q with current_index := some (i - 1) })
      else (none, q)
  | none => (none, q)

/-- Operation `Queue::play_at`: jump to a valid index, no-op out of range. -/
def play_at (q : Queue) (index : Nat) : Option QueueItem × Queue :=
  if index < q.items.length then
    (q.items.get? index, { q with current_index := some index })
  else (none, q)

/-- Accessor `Queue::len`. -/
def len (q : Queue) : Nat := q.items.length

/-- Accessor `Queue::is_empty`. -/
def is_empty (q : Queue) : Bool := q.items.isEmpty

/-- Inner loop of `Queue::update_live_channels`: run one live-channel queue
entry's mutable `show_name`/`genres` fields through the fresh list, in order,
overwriting on every matching fresh entry that differs from the current
value, and recording whether any write happened. -/
def refreshFields (ch : Nat) (live : List DiscoveryItem) (sn : String)
    (g : List String) : String × List String × Bool :=
  match live with
  | [] => (sn, g, false)
  | fresh :: rest =>
      match fresh with
      | .NtsLiveChannel ch' sn' _ g' _ _ =>
          if ch' = ch ∧ (sn ≠ sn' ∨ g ≠ g') then
            let r := refreshFields ch rest sn' g'
            (r.1, r.2.1, true)
          else refreshFields ch rest sn g
      | _ => refreshFields ch rest sn g

/-- Per-entry body of the `for qi in &mut self.items` loop of
`Queue::update_live_channels`. -/
def refreshItem (live : List DiscoveryItem) (qi : QueueItem) : QueueItem × Bool :=
  match qi.item with
  | .NtsLiveChannel ch sn bt g st en =>
      let r := refreshFields ch live sn g
      ({ qi with item := .NtsLiveChannel ch r.1 bt r.2.1 st en }, r.2.2)
  | _ => (qi, false)

/-- Operation `Queue::update_live_channels`: refresh every live-channel entry from the
fresh list; returns the `changed` flag and the post-state. -/
def update_live_channels (q : Queue) (live : List DiscoveryItem) : Bool × Queue :=
  let pairs := q.items.map (refreshItem live)
  (pairs.any Prod.snd, { items := pairs.map Prod.fst, current_index := q.current_index })

/-- Operation `Queue::set_current_stream_metadata`: replace the metadata of the item at
the cursor, if both exist. -/
def set_current_stream_metadata (q : Queue) (metadata : StreamMetadata) : Queue :=
  match q.current_index with
  | some i =>
      match q.items.get? i with
      | some it => { q with items := q.items.set i { it with stream_metadata := some metadata } }
      | none => q
  | none => q

/-- Whether a queue entry's content is a live-channel variant with the given
channel number. -/
def isLiveChannelEntry (n : Nat) (qi : QueueItem) : Bool :=
  match qi.item with
  | .NtsLiveChannel ch _ _ _ _ _ => ch = n
  | _ => false

/-- Modelled from the spec: `find_live_channel` is called by the tests
(`tests/queue_and_app.rs`) but absent from the provided `src/player/queue.rs`.
Spec §4.1: "linear scan returning the index of the queue entry whose content
is a live-channel variant with matching channel number, or none." -/
def find_live_channel (q : Queue) (n : Nat) : Option Nat :=
  q.items.findIdx? (isLiveChannelEntry n)

end Queue

/-- One call against the public queue API, for quantifying over sequences of
operations in claims about invariants. -/
inductive Op where
  | add (item : QueueItem)
  | add_next (item : QueueItem)
  | remove (index : Nat)
  | clear
  | advance
  | prev
  | play_at (index : Nat)
  | update_live (live : List DiscoveryItem)
  | set_meta (metadata : StreamMetadata)

namespace Queue

/-- Apply one operation to the queue, discarding any returned item. -/
def apply (q : Queue) : Op → Queue
  | .add x => q.add x
  | .add_next x => q.add_next x
  | .remove n => q.remove n
  | .clear => q.clear
  | .advance => q.advance.2
  | .prev => q.prev.2
  | .play_at n => (q.play_at n).2
  | .update_live l => (q.update_live_channels l).2
  | .set_meta m => q.set_current_stream_metadata m

/-- Run a sequence of operations starting from the empty queue. -/
def run (ops : List Op) : Queue := ops.foldl apply new

/-- The cursor invariant of spec §3: the cursor is absent exactly on the
empty queue, and otherwise in range. -/
def Inv (q : Queue) : Prop :=
  (q.current_index = none ↔ q.items = []) ∧
    ∀ i, q.current_index = some i → i < q.items.length

theorem advance_none {q : Queue} (hci : q.current_index = none) :
    q.advance = (none, q) := by
  simp [advance, hci]

theorem advance_of_lt {q : Queue} {i : Nat} (hci : q.current_index = some i)
    (hlt : i + 1 < q.items.length) :
    q.advance = (q.items.get? (i + 1), { q with current_index := some (i + 1) }) := by
  simp [advance, hci, hlt]

theorem advance_of_ge {q : Queue} {i : Nat} (hci : q.current_index = some i)
    (hge : ¬ i + 1 < q.items.length) :
    q.advance = (none, q) := by
  simp [advance, hci, hge]

theorem prev_none {q : Queue} (hci : q.current_index = none) :
    q.prev = (none, q) := by
  simp [prev, hci]

theorem prev_of_pos {q : Queue} {i : Nat} (hci : q.current_index = some i)
    (hpos : 0 < i) :
    q.prev = (q.items.get? (i - 1), { q with current_index := some (i - 1) }) := by
  simp [prev, hci, hpos]

theorem prev_of_zero {q : Queue} (hci : q.current_index = some 0) :
    q.prev = (none, q) := by
  simp [prev, hci]

theorem play_at_in_range {q : Queue} {n : Nat} (hlt : n < q.items.length) :
    q.play_at n = (q.items.get? n, { q with current_index := some n }) := by
  simp [play_at, hlt]

theorem play_at_out_of_range {q : Queue} {n : Nat} (hge : ¬ n < q.items.length) :
    q.play_at n = (none, q) := by
  simp [play_at, hge]

theorem remove_out_of_range {q : Queue} {n : Nat} (hge : ¬ n < q.items.length) :
    q.remove n = q := by
  simp [remove, hge]

theorem remove_in_range {q : Queue} {n : Nat} (hlt : n < q.items.length) :
    q.remove n =
      { items := q.items.eraseIdx n
        current_index :=
          if (q.items.eraseIdx n).isEmpty then none
          else match q.current_index with
            | some curr => if n ≤ curr ∧ 0 < curr then some (curr - 1) else some curr
            | none => none } := by
  simp [remove, hlt]

theorem inv_new : Inv new := by
  constructor
  · simp [new]
  · intro i hi
    simp [new] at hi

theorem inv_add {q : Queue} (x : QueueItem) (h : q.Inv) : (q.add x).Inv := by
  obtain ⟨h1, h2⟩ := h
  cases hci : q.current_index with
  | none =>
      have hit : q.items = [] := h1.mp hci
      refine ⟨by simp [add, hci, hit], ?_⟩
      intro i hi
      simp [add, hci] at hi
      simp [add, hit, ← hi]
  | some i =>
      have hi := h2 i hci
      refine ⟨by simp [add, hci], ?_⟩
      intro j hj
      simp [add, hci] at hj
      simp [add, ← hj]
      omega

theorem inv_add_next {q : Queue} (x : QueueItem) (h : q.Inv) : (q.add_next x).Inv := by
  obtain ⟨h1, h2⟩ := h
  cases hci : q.current_index with
  | none =>
      have hit : q.items = [] := h1.mp hci
      refine ⟨by simp [add_next, hci, hit], ?_⟩
      intro i hi
      simp [add_next, hci] at hi
      simp [add_next, hci, hit, ← hi]
  | some i =>
      have hi := h2 i hci
      have hlen : (q.items.insertIdx (i + 1) x).length = q.items.length + 1 :=
        List.length_insertIdx _ _ (by omega)
      have hne : q.items.insertIdx (i + 1) x ≠ [] := by
        intro he
        rw [he] at hlen
        simp at hlen
      refine ⟨by simp [add_next, hci, hne], ?_⟩
      intro j hj
      simp [add_next, hci] at hj
      simp [add_next, hci, hlen, ← hj]
      omega

theorem inv_remove {q : Queue} (n : Nat) (h : q.Inv) : (q.remove n).Inv := by
  obtain ⟨h1, h2⟩ := h
  by_cases hlt : n < q.items.length
  · rw [remove_in_range hlt]
    have hlen : (q.items.eraseIdx n).length = q.items.length - 1 := by
      simp [List.length_eraseIdx, hlt]
    cases he : (q.items.eraseIdx n).isEmpty with
    | true =>
        have heq : q.items.eraseIdx n = [] := List.isEmpty_iff.mp he
        refine ⟨by simp [he, heq], ?_⟩
        intro i hi
        simp [he] at hi
    | false =>
        have hne : q.items.eraseIdx n ≠ [] := by
          intro hh
          rw [hh] at he
          simp at he
        have hpos : 0 < q.items.length - 1 := by
          rw [← hlen]
          exact List.length_pos.mpr hne
        cases hci : q.current_index with
        | none =>
            have : q.items = [] := h1.mp hci
            simp [this] at hlt
        | some curr =>
            have hc := h2 curr hci
            refine ⟨?_, ?_⟩
            · simp [he, hne]
              split <;> simp
            · intro j hj
              simp only [he] at hj
              simp only [Bool.false_eq_true, if_false] at hj
              simp only [hlen]
              split at hj <;> simp at hj <;> omega
  · rw [remove_out_of_range hlt]
    exact ⟨h1, h2⟩

theorem inv_clear (q : Queue) : (q.clear).Inv := by
  refine ⟨by simp [clear], ?_⟩
  intro i hi
  simp [clear] at hi

theorem inv_advance {q : Queue} (h : q.Inv) : q.advance.2.Inv := by
  obtain ⟨h1, h2⟩ := h
  cases hci : q.current_index with
  | none => rw [advance_none hci]; exact ⟨h1, h2⟩
  | some i =>
      by_cases hlt : i + 1 < q.items.length
      · rw [advance_of_lt hci hlt]
        refine ⟨?_, ?_⟩
        · simp
          intro hh
          simp [hh] at hlt
        · intro j hj
          simp at hj ⊢
          omega
      · rw [advance_of_ge hci hlt]
        exact ⟨h1, h2⟩

theorem inv_prev {q : Queue} (h : q.Inv) : q.prev.2.Inv := by
  obtain ⟨h1, h2⟩ := h
  cases hci : q.current_index with
  | none => rw [prev_none hci]; exact ⟨h1, h2⟩
  | some i =>
      have hi := h2 i hci
      by_cases hpos : 0 < i
      · rw [prev_of_pos hci hpos]
        refine ⟨?_, ?_⟩
        · simp
          intro hh
          simp [hh] at hi
        · intro j hj
          simp at hj ⊢
          omega
      · have h0 : i = 0 := by omega
        rw [prev_of_zero (h0 ▸ hci)]
        exact ⟨h1, h2⟩

theorem inv_play_at {q : Queue} (n : Nat) (h : q.Inv) : (q.play_at n).2.Inv := by
  obtain ⟨h1, h2⟩ := h
  by_cases hlt : n < q.items.length
  · rw [play_at_in_range hlt]
    refine ⟨?_, ?_⟩
    · simp
      intro hh
      simp [hh] at hlt
    · intro j hj
      simp at hj ⊢
      omega
  · rw [play_at_out_of_range hlt]
    exact ⟨h1, h2⟩

theorem inv_update_live {q : Queue} (l : List DiscoveryItem) (h : q.Inv) :
    (q.update_live_channels l).2.Inv := by
  obtain ⟨h1, h2⟩ := h
  refine ⟨?_, ?_⟩
  · simpa [update_live_channels] using h1
  · intro i hi
    simp [update_live_channels] at hi ⊢
    exact h2 i hi

theorem set_meta_none {q : Queue} {m : StreamMetadata} (hci : q.current_index = none) :
    q.set_current_stream_metadata m = q := by
  simp [set_current_stream_metadata, hci]

theorem set_meta_miss {q : Queue} {m : StreamMetadata} {i : Nat}
    (hci : q.current_index = some i) (hit : q.items.get? i = none) :
    q.set_current_stream_metadata m = q := by
  have hit' : q.items[i]? = none := by simpa [List.get?_eq_getElem?] using hit
  simp [set_current_stream_metadata, hci, hit']

theorem set_meta_hit {q : Queue} {m : StreamMetadata} {i : Nat} {it : QueueItem}
    (hci : q.current_index = some i) (hit : q.items.get? i = some it) :
    q.set_current_stream_metadata m =
      { q with items := q.items.set i { it with stream_metadata := some m } } := by
  have hit' : q.items[i]? = some it := by simpa [List.get?_eq_getElem?] using hit
  simp [set_current_stream_metadata, hci, hit']

theorem inv_set_meta {q : Queue} (m : StreamMetadata) (h : q.Inv) :
    (q.set_current_stream_metadata m).Inv := by
  obtain ⟨h1, h2⟩ := h
  cases hci : q.current_index with
  | none => rw [set_meta_none hci]; exact ⟨h1, h2⟩
  | some i =>
      cases hit : q.items.get? i with
      | none => rw [set_meta_miss hci hit]; exact ⟨h1, h2⟩
      | some it =>
          rw [set_meta_hit hci hit]
          refine ⟨?_, ?_⟩
          · simp [hci]
            intro hh
            rw [hh] at hit
            simp at hit
          · intro j hj
            simp [hci] at hj
            have := h2 i hci
            simp [← hj]
            omega

theorem inv_apply {q : Queue} (op : Op) (h : q.Inv) : (q.apply op).Inv := by
  cases op with
  | add x => exact inv_add x h
  | add_next x => exact inv_add_next x h
  | remove n => exact inv_remove n h
  | clear => exact inv_clear q
  | advance => exact inv_advance h
  | prev => exact inv_prev h
  | play_at n => exact inv_play_at n h
  | update_live l => exact inv_update_live l h
  | set_meta m => exact inv_set_meta m h

theorem inv_foldl (ops : List Op) {q : Queue} (h : q.Inv) :
    (ops.foldl apply q).Inv := by
  induction ops generalizing q with
  | nil => exact h
  | cons op rest ih => exact ih (inv_apply op h)

end Queue

/-- Inserting at an in-range position is splice-in-the-middle. -/
theorem insertIdx_eq_take_cons_drop {α : Type _} (a : α) :
    ∀ (n : Nat) (l : List α), n ≤ l.length →
      l.insertIdx n a = l.take n ++ a :: l.drop n
  | 0, l, _ => by simp
  | n + 1, [], h => by simp at h
  | n + 1, hd :: tl, h => by
      simp only [List.insertIdx_succ_cons, List.take_succ_cons, List.drop_succ_cons,
        List.cons_append]
      rw [insertIdx_eq_take_cons_drop a n tl (by simpa using h)]

/-- A sample queue entry used by concrete witnesses. -/
def sampleA : QueueItem :=
  ⟨.NtsEpisode "A" "show-a" "ep-a" ["Jazz"] none (some "http://a") none, "http://a", none⟩

/-- A second sample queue entry used by concrete witnesses. -/
def sampleB : QueueItem :=
  ⟨.DirectUrl "http://b" (some "B"), "http://b", none⟩

/-- C1: for every sequence of queue operations starting from the empty queue,
`current_index` is `None` iff `items` is empty, and whenever it is `Some i`,
`i` is a valid index into `items`. -/
theorem queue_cursor_invariant (ops : List Op) :
    ((Queue.run ops).current_index = none ↔ (Queue.run ops).items = []) ∧
      ∀ i, (Queue.run ops).current_index = some i → i < (Queue.run ops).items.length :=
  Queue.inv_foldl ops Queue.inv_new

/-- The two-element queue `add(A); add(B)` of the spec's end-to-end scenario. -/
def sampleQueue2 : Queue := (Queue.new.add sampleA).add sampleB

/-- C2: `add` appends at the end; the first `add` on an empty queue sets the
cursor to `some 0` and every `add` on a non-empty queue leaves the cursor
unchanged; `add_next` on an empty queue behaves identically to `add`, and on
a queue with a cursor splices the item in right after the cursor without
moving the cursor. -/
theorem queue_add_add_next_rules (q : Queue) (x : QueueItem) (h : q.Inv) :
    (q.add x).items = q.items ++ [x] ∧
    (q.items = [] → (q.add x).current_index = some 0) ∧
    (q.items ≠ [] → (q.add x).current_index = q.current_index) ∧
    (q.items = [] → q.add_next x = q.add x) ∧
    (∀ i, q.current_index = some i →
      (q.add_next x).items = q.items.take (i + 1) ++ x :: q.items.drop (i + 1) ∧
      (q.add_next x).current_index = q.current_index) := by
  obtain ⟨h1, h2⟩ := h
  refine ⟨rfl, ?_, ?_, ?_, ?_⟩
  · intro he
    have hci := h1.mpr he
    simp [Queue.add, hci]
  · intro hne
    cases hci : q.current_index with
    | none => exact absurd (h1.mp hci) hne
    | some i => simp [Queue.add, hci]
  · intro he
    have hci := h1.mpr he
    simp [Queue.add, Queue.add_next, hci, he]
  · intro i hci
    have hle : i + 1 ≤ q.items.length := h2 i hci
    constructor
    · show (q.items.insertIdx ((q.current_index.map (· + 1)).getD 0) x) = _
      rw [hci]
      simpa using insertIdx_eq_take_cons_drop x (i + 1) q.items hle
    · simp [Queue.add_next, hci]

theorem queue_add_add_next_rules_witness :
    (Queue.new.add sampleA).items ≠ [] ∧
      ((Queue.new.add sampleA).add sampleB).current_index =
        (Queue.new.add sampleA).current_index :=
  ⟨by decide,
    (queue_add_add_next_rules (Queue.new.add sampleA) sampleB
      (Queue.inv_add sampleA Queue.inv_new)).2.2.1 (by decide)⟩

/-- C3: in range, `remove` deletes exactly the item at `index`; if the queue
becomes empty the cursor becomes `none`; otherwise, when the cursor was
`some curr`, it decrements exactly when `index ≤ curr ∧ 0 < curr` and is
unchanged otherwise; out of range, `remove` is a no-op. -/
theorem queue_remove_rules (q : Queue) (n : Nat) :
    (n < q.items.length →
      (q.remove n).items = q.items.take n ++ q.items.drop (n + 1) ∧
      ((q.remove n).items = [] → (q.remove n).current_index = none) ∧
      (∀ curr, q.current_index = some curr → (q.remove n).items ≠ [] →
        (q.remove n).current_index =
          if n ≤ curr ∧ 0 < curr then some (curr - 1) else some curr)) ∧
    (¬ n < q.items.length → q.remove n = q) := by
  refine ⟨?_, fun hge => Queue.remove_out_of_range hge⟩
  intro hlt
  rw [Queue.remove_in_range hlt]
  refine ⟨List.eraseIdx_eq_take_drop_succ .., ?_, ?_⟩
  · intro he
    simp only at he
    simp [he]
  · intro curr hci hne
    simp only at hne
    have hemp : (q.items.eraseIdx n).isEmpty = false := by
      simpa [List.isEmpty_iff] using hne
    simp [hemp, hci]

theorem queue_remove_rules_witness :
    0 < sampleQueue2.items.length ∧
      (sampleQueue2.remove 0).items =
        sampleQueue2.items.take 0 ++ sampleQueue2.items.drop 1 :=
  ⟨by decide, ((queue_remove_rules sampleQueue2 0).1 (by decide)).1⟩

/-- C4: `advance` moves the cursor forward by one and returns the newly
current item when a next item exists, and returns `none` leaving the state
unchanged at the end or on an empty queue; `prev` moves backward by one when
the cursor is positive and returns `none` leaving the state unchanged
otherwise; and the spec's concrete `add(A); add(B)` scenario plays out as
stated. -/
theorem queue_advance_prev_boundary :
    (∀ (q : Queue) (i : Nat), q.current_index = some i → i + 1 < q.items.length →
       q.advance = (q.items.get? (i + 1), { q with current_index := some (i + 1) }) ∧
       q.advance.1 = q.advance.2.current) ∧
    (∀ (q : Queue) (i : Nat), q.current_index = some i → ¬ i + 1 < q.items.length →
       q.advance = (none, q)) ∧
    (∀ q : Queue, q.current_index = none → q.advance = (none, q)) ∧
    (∀ (q : Queue) (i : Nat), q.current_index = some i → 0 < i →
       q.prev = (q.items.get? (i - 1), { q with current_index := some (i - 1) }) ∧
       q.prev.1 = q.prev.2.current) ∧
    (∀ q : Queue, q.current_index = some 0 → q.prev = (none, q)) ∧
    (∀ q : Queue, q.current_index = none → q.prev = (none, q)) ∧
    (sampleQueue2.current_index = some 0 ∧ sampleQueue2.len = 2 ∧
     sampleQueue2.advance.1 = some sampleB ∧
     sampleQueue2.advance.2.current_index = some 1 ∧
     sampleQueue2.advance.2.advance.1 = none ∧
     sampleQueue2.advance.2.advance.2.current_index = some 1 ∧
     sampleQueue2.advance.2.advance.2.prev.1 = some sampleA ∧
     sampleQueue2.advance.2.advance.2.prev.2.current_index = some 0) := by
  refine ⟨?_, ?_, ?_, ?_, ?_, ?_, ?_⟩
  · intro q i hci hlt
    rw [Queue.advance_of_lt hci hlt]
    exact ⟨rfl, by simp [Queue.current]⟩
  · intro q i hci hge
    exact Queue.advance_of_ge hci hge
  · intro q hci
    exact Queue.advance_none hci
  · intro q i hci hpos
    rw [Queue.prev_of_pos hci hpos]
    exact ⟨rfl, by simp [Queue.current]⟩
  · intro q hci
    exact Queue.prev_of_zero hci
  · intro q hci
    exact Queue.prev_none hci
  · decide

theorem queue_advance_prev_boundary_witness :
    sampleQueue2.current_index = some 0 ∧ 0 + 1 < sampleQueue2.items.length ∧
      sampleQueue2.advance =
        (sampleQueue2.items.get? 1, { sampleQueue2 with current_index := some 1 }) :=
  ⟨by decide, by decide,
    (queue_advance_prev_boundary.1 sampleQueue2 0 (by decide) (by decide)).1⟩

/-- C10: on any queue satisfying the cursor invariant, a successful
`advance` followed by `prev` returns the previously current item and
restores the queue exactly; symmetrically for a successful `prev` followed
by `advance`. -/
theorem queue_advance_prev_roundtrip (q : Queue) (h : q.Inv) :
    (∀ x, q.advance.1 = some x →
       q.advance.2.prev = (q.current, q) ∧ q.current.isSome) ∧
    (∀ x, q.prev.1 = some x →
       q.prev.2.advance = (q.current, q) ∧ q.current.isSome) := by
  obtain ⟨h1, h2⟩ := h
  constructor
  · intro x hx
    cases hci : q.current_index with
    | none =>
        rw [Queue.advance_none hci] at hx
        simp at hx
    | some i =>
        by_cases hlt : i + 1 < q.items.length
        · rw [Queue.advance_of_lt hci hlt]
          have hilt : i < q.items.length := by omega
          have hq : ({ q with current_index := some i } : Queue) = q := by
            cases q with
            | mk it ci => simp_all
          have hprev :
              ({ q with current_index := some (i + 1) } : Queue).prev =
                (q.items.get? i, { q with current_index := some i }) := by
            have := Queue.prev_of_pos (q := { q with current_index := some (i + 1) })
              (i := i + 1) rfl (by omega)
            simpa using this
          rw [hprev, hq]
          constructor
          · have : q.current = q.items.get? i := by simp [Queue.current, hci]
            rw [this]
          · simp [Queue.current, hci, List.get?_eq_getElem?,
              List.getElem?_eq_getElem hilt]
        · rw [Queue.advance_of_ge hci hlt] at hx
          simp at hx
  · intro x hx
    cases hci : q.current_index with
    | none =>
        rw [Queue.prev_none hci] at hx
        simp at hx
    | some i =>
        by_cases hpos : 0 < i
        · rw [Queue.prev_of_pos hci hpos]
          have hilt : i < q.items.length := h2 i hci
          have hq : ({ q with current_index := some i } : Queue) = q := by
            cases q with
            | mk it ci => simp_all
          have hadv :
              ({ q with current_index := some (i - 1) } : Queue).advance =
                (q.items.get? (i - 1 + 1), { q with current_index := some (i - 1 + 1) }) := by
            exact Queue.advance_of_lt (q := { q with current_index := some (i - 1) })
              (i := i - 1) rfl (by simp; omega)
          have hi1 : i - 1 + 1 = i := by omega
          rw [hadv, hi1, hq]
          constructor
          · have : q.current = q.items.get? i := by simp [Queue.current, hci]
            rw [this]
          · simp [Queue.current, hci, List.get?_eq_getElem?,
              List.getElem?_eq_getElem hilt]
        · have h0 : i = 0 := by omega
          rw [Queue.prev_of_zero (h0 ▸ hci)] at hx
          simp at hx

theorem queue_advance_prev_roundtrip_witness :
    sampleQueue2.advance.1 = some sampleB ∧
      sampleQueue2.advance.2.prev = (sampleQueue2.current, sampleQueue2) :=
  ⟨by decide,
    ((queue_advance_prev_roundtrip sampleQueue2
        (Queue.inv_add sampleB (Queue.inv_add sampleA Queue.inv_new))).1 sampleB
      (by decide)).1⟩

/-- A live-channel queue entry for channel 1, as the tests build them. -/
def sampleLive1 : QueueItem :=
  ⟨.NtsLiveChannel 1 "Show A" "Show A" ["Jazz"] "" "", "http://live1", none⟩

/-- A live-channel queue entry for channel 2. -/
def sampleLive2 : QueueItem :=
  ⟨.NtsLiveChannel 2 "Show B" "Show B" ["Ambient"] "" "", "http://live2", none⟩

/-- Episode at index 0, live channel 1 at index 1, live channel 2 at index 2:
the queue of `test_find_live_channel`. -/
def sampleQueueLive : Queue := ((Queue.new.add sampleA).add sampleLive1).add sampleLive2

/-- C6: `find_live_channel n` returns an index holding a live-channel entry
with channel number `n`; it returns `none` exactly when no entry matches;
and under the dedup invariant (at most one entry per channel number) it
returns exactly the unique matching index. -/
theorem queue_find_live_channel_rules (q : Queue) (n : Nat) :
    (∀ i, q.find_live_channel n = some i →
      ∃ h : i < q.items.length,
        Queue.isLiveChannelEntry n (q.items.get ⟨i, h⟩) = true) ∧
    (q.find_live_channel n = none ↔
      ∀ qi ∈ q.items, Queue.isLiveChannelEntry n qi = false) ∧
    ((∀ (j : Nat) (hj : j < q.items.length) (k : Nat) (hk : k < q.items.length),
        Queue.isLiveChannelEntry n (q.items.get ⟨j, hj⟩) = true →
        Queue.isLiveChannelEntry n (q.items.get ⟨k, hk⟩) = true → j = k) →
      ∀ (j : Nat) (hj : j < q.items.length),
        Queue.isLiveChannelEntry n (q.items.get ⟨j, hj⟩) = true →
        q.find_live_channel n = some j) := by
  refine ⟨?_, ?_, ?_⟩
  · intro i hi
    obtain ⟨h, hp, -⟩ := List.findIdx?_eq_some_iff_getElem.mp hi
    exact ⟨h, by simpa [List.get_eq_getElem] using hp⟩
  · exact List.findIdx?_eq_none_iff
  · intro huniq j hj hpj
    have hex : ∃ x, x ∈ q.items ∧ Queue.isLiveChannelEntry n x = true :=
      ⟨q.items.get ⟨j, hj⟩, q.items.get_mem j hj, hpj⟩
    have hsome := List.findIdx?_eq_some_of_exists (by simpa using hex)
    obtain ⟨hi, hpi, -⟩ := List.findIdx?_eq_some_iff_getElem.mp hsome
    have hpi' : Queue.isLiveChannelEntry n
        (q.items.get ⟨q.items.findIdx (Queue.isLiveChannelEntry n), hi⟩) = true := by
      simpa [List.get_eq_getElem] using hpi
    have := huniq _ hi j hj hpi' hpj
    rw [Queue.find_live_channel, hsome, this]

theorem queue_find_live_channel_witness :
    sampleQueueLive.find_live_channel 1 = some 1 ∧
      ∃ h : 1 < sampleQueueLive.items.length,
        Queue.isLiveChannelEntry 1 (sampleQueueLive.items.get ⟨1, h⟩) = true :=
  ⟨by decide, (queue_find_live_channel_rules sampleQueueLive 1).1 1 (by decide)⟩

/-- Rust's `char::is_whitespace`: the Unicode `White_Space` code points. -/
def rustIsWhitespace (c : Char) : Bool :=
  c.toNat ∈ ([0x09, 0x0A, 0x0B, 0x0C, 0x0D, 0x20, 0x85, 0xA0, 0x1680,
    0x2000, 0x2001, 0x2002, 0x2003, 0x2004, 0x2005, 0x2006, 0x2007, 0x2008,
    0x2009, 0x200A, 0x2028, 0x2029, 0x202F, 0x205F, 0x3000] : List Nat)

/-- Rust's `str::trim`: strip leading and trailing whitespace. -/
def rustTrim (s : String) : String :=
  ⟨((s.data.dropWhile rustIsWhitespace).reverse.dropWhile rustIsWhitespace).reverse⟩

/-- Rust's `str::starts_with` for a literal pattern. -/
def rustStartsWith (s p : String) : Bool := p.data.isPrefixOf s.data

/-- Function `is_junk_metadata` from `src/player/ipc.rs`: trims the reported value and
rejects empty values, the literal placeholder, raw URLs, and the
currently-playing URL. -/
def is_junk_metadata (val url : String) : Bool :=
  let trimmed := rustTrim val
  trimmed.isEmpty || trimmed == "stream" || rustStartsWith trimmed "http://" ||
    rustStartsWith trimmed "https://" || trimmed == url

/-- The inline media-title filter of `MpvPlayer::play` (`src/player/mod.rs`):
the trimmed title is forwarded as stream metadata exactly when this holds. -/
def media_title_accepted (raw url : String) : Bool :=
  let title := rustTrim raw
  !title.isEmpty && title != "stream" && !rustStartsWith title "http://" &&
    !rustStartsWith title "https://" && title != url

/-- C7: the junk filter rejects a reported value iff it is empty after
trimming, or the literal "stream", or an http/https URL, or the
currently-playing URL; the inline media-title filter of `play` accepts
exactly the values the shared filter does not reject; and the spec's four
concrete rejects (and a normal accept) evaluate as stated. -/
theorem metadata_junk_filter_rules :
    (∀ val url : String,
      is_junk_metadata val url = true ↔
        (rustTrim val = "" ∨ rustTrim val = "stream" ∨
          rustStartsWith (rustTrim val) "http://" = true ∨
          rustStartsWith (rustTrim val) "https://" = true ∨ rustTrim val = url)) ∧
    (∀ raw url : String, media_title_accepted raw url = !is_junk_metadata raw url) ∧
    (is_junk_metadata "" "http://cur" = true ∧
      is_junk_metadata "stream" "http://cur" = true ∧
      is_junk_metadata "https://example.com/stream" "http://cur" = true ∧
      is_junk_metadata "http://cur" "http://cur" = true ∧
      is_junk_metadata "Nina Simone - Feeling Good" "http://cur" = false) := by
  refine ⟨?_, ?_, by decide⟩
  · intro val url
    simp [is_junk_metadata, String.isEmpty_iff, or_assoc]
  · intro raw url
    simp [is_junk_metadata, media_title_accepted, Bool.not_or, bne]

/-- Constant `SILENCE_FLOOR_DB` from `src/player/ipc.rs`. -/
def SILENCE_FLOOR_DB : ℝ := -60

/-- Function `db_to_linear` from `src/player/ipc.rs`, with the `f64` arithmetic read
as real arithmetic: at or below the silence floor the result is exactly 0,
above it `10^(db/20)` clamped to `[0, 1]` (Rust's `clamp(0.0, 1.0)` is
`min (max x 0) 1`). -/
noncomputable def db_to_linear (db : ℝ) : ℝ :=
  if db ≤ SILENCE_FLOOR_DB then 0 else min (max ((10 : ℝ) ^ (db / 20)) 0) 1

/-- C8: `db_to_linear` is 0 at and below −60 dB, equals the clamped
`10^(db/20)` above the floor, takes the spec's concrete values at −60, −90
and 0 dB, and is monotonically non-decreasing everywhere. -/
theorem db_to_linear_rules :
    (∀ db : ℝ, db ≤ -60 → db_to_linear db = 0) ∧
    (∀ db : ℝ, -60 < db → db_to_linear db = min (max ((10 : ℝ) ^ (db / 20)) 0) 1) ∧
    db_to_linear (-60) = 0 ∧ db_to_linear (-90) = 0 ∧ db_to_linear 0 = 1 ∧
    (∀ x y : ℝ, x ≤ y → db_to_linear x ≤ db_to_linear y) := by
  have hfloor : ∀ db : ℝ, db ≤ -60 → db_to_linear db = 0 := by
    intro db h
    rw [db_to_linear, if_pos (by simpa [SILENCE_FLOOR_DB] using h)]
  have habove : ∀ db : ℝ, -60 < db →
      db_to_linear db = min (max ((10 : ℝ) ^ (db / 20)) 0) 1 := by
    intro db h
    rw [db_to_linear, if_neg (by simp [SILENCE_FLOOR_DB]; linarith)]
  refine ⟨hfloor, habove, hfloor _ (by norm_num), hfloor _ (by norm_num), ?_, ?_⟩
  · rw [habove 0 (by norm_num)]
    norm_num
  · intro x y hxy
    by_cases hx : x ≤ -60
    · rw [hfloor x hx]
      by_cases hy : y ≤ -60
      · rw [hfloor y hy]
      · rw [habove y (by linarith)]
        exact le_min (le_max_right _ _) zero_le_one
    · have hx' : (-60 : ℝ) < x := by linarith
      rw [habove x hx', habove y (by linarith)]
      have hpow : (10 : ℝ) ^ (x / 20) ≤ (10 : ℝ) ^ (y / 20) :=
        Real.rpow_le_rpow_of_exponent_le (by norm_num) (by linarith)
      exact min_le_min (max_le_max hpow le_rfl) le_rfl

theorem db_to_linear_rules_witness :
    ((-90 : ℝ) ≤ -60 ∧ db_to_linear (-90) = 0) ∧
      ((-90 : ℝ) ≤ 0 ∧ db_to_linear (-90) ≤ db_to_linear 0) :=
  ⟨⟨by norm_num, db_to_linear_rules.1 (-90) (by norm_num)⟩,
    ⟨by norm_num, db_to_linear_rules.2.2.2.2.2 (-90) 0 (by norm_num)⟩⟩

/-- Whether `sub` occurs as a contiguous run inside `l`. -/
def charsContain (sub : List Char) : List Char → Bool
  | [] => sub.isEmpty
  | c :: t => sub.isPrefixOf (c :: t) || charsContain sub t

/-- Rust's `str::contains` for a literal pattern. -/
def rustContains (s sub : String) : Bool := charsContain sub.data s.data

/-- The argument list `MpvPlayer::play` (`src/player/mod.rs`) passes to the
spawned `mpv` process: `--no-video`, `--no-terminal`, the IPC socket flag,
and the target URL. -/
def mpv_args (socket_path url : String) : List String :=
  ["--no-video", "--no-terminal", "--input-ipc-server=" ++ socket_path, url]

/-- C9 counterexample: at a concrete socket path and URL, the spawn argument
list is exactly the four elements above; in particular it has no fifth
element, no `--af`-style flag and no element mentioning `astats`, so no
audio-statistics filter expression is passed, contrary to the claim. -/
theorem mpv_spawn_audio_filter_counterexample :
    mpv_args "/tmp/clisten-mpv-1.sock" "http://stream.example/a" =
      ["--no-video", "--no-terminal", "--input-ipc-server=/tmp/clisten-mpv-1.sock",
        "http://stream.example/a"] ∧
    (mpv_args "/tmp/clisten-mpv-1.sock" "http://stream.example/a").length = 4 ∧
    (mpv_args "/tmp/clisten-mpv-1.sock" "http://stream.example/a").all
        (fun a => !rustContains a "astats" && !rustStartsWith a "--af") = true := by
  decide

/-- C9 (amended): `play` spawns the player with exactly the video-disabling
flag, the terminal-takeover-disabling flag, the control socket path via its
named flag, and the target URL as the sole positional (final) argument — and
no audio-statistics filter expression. -/
theorem mpv_spawn_args_rules (socket_path url : String)
    (h : rustStartsWith url "--" = false) :
    mpv_args socket_path url =
      ["--no-video", "--no-terminal", "--input-ipc-server=" ++ socket_path, url] ∧
    (mpv_args socket_path url).getLast? = some url ∧
    ((mpv_args socket_path url).filter (fun a => !rustStartsWith a "--")).length = 1 := by
  have hs : rustStartsWith ("--input-ipc-server=" ++ socket_path) "--" = true := rfl
  have h1 : rustStartsWith "--no-video" "--" = true := rfl
  have h2 : rustStartsWith "--no-terminal" "--" = true := rfl
  refine ⟨rfl, rfl, ?_⟩
  simp [mpv_args, List.filter, hs, h, h1, h2]

theorem mpv_spawn_args_rules_witness :
    rustStartsWith "http://stream.example/a" "--" = false ∧
      ((mpv_args "/tmp/s.sock" "http://stream.example/a").filter
          (fun a => !rustStartsWith a "--")).length = 1 :=
  ⟨by decide, (mpv_spawn_args_rules "/tmp/s.sock" "http://stream.example/a" (by decide)).2.2⟩

/-- The channel numbers of the live-channel entries of a fresh list. -/
def freshChannels (live : List DiscoveryItem) : List Nat :=
  live.filterMap fun f =>
    match f with
    | .NtsLiveChannel ch _ _ _ _ _ => some ch
    | _ => none

/-- The show name and genre list of the first fresh live-channel entry with
the given channel number, if any. -/
def matchingFresh (live : List DiscoveryItem) (ch : Nat) : Option (String × List String) :=
  live.findSome? fun f =>
    match f with
    | .NtsLiveChannel ch' sn' _ g' _ _ => if ch' = ch then some (sn', g') else none
    | _ => none

/-- The spec's wording of `update_live_channels`, per entry: a live-channel
entry whose show name or genre list differs from the fresh entry with the
same channel number gets exactly those two display fields overwritten; every
other entry is unchanged. -/
def refreshSpec (live : List DiscoveryItem) (qi : QueueItem) : QueueItem :=
  match qi.item with
  | .NtsLiveChannel ch sn bt g st en =>
      match matchingFresh live ch with
      | some (sn', g') =>
          if sn = sn' ∧ g = g' then qi
          else { qi with item := .NtsLiveChannel ch sn' bt g' st en }
      | none => qi
  | _ => qi

theorem refreshFields_no_match {ch : Nat} {live : List DiscoveryItem}
    (h : ch ∉ freshChannels live) (sn : String) (g : List String) :
    Queue.refreshFields ch live sn g = (sn, g, false) := by
  induction live generalizing sn g with
  | nil => rfl
  | cons fresh rest ih =>
      cases fresh with
      | NtsLiveChannel ch' sn' bt' g' st' en' =>
          have hch : ch' ≠ ch := by
            intro he
            exact h (by simp [freshChannels, he])
          have hrest : ch ∉ freshChannels rest := by
            intro hm
            exact h (by simp [freshChannels] at hm ⊢; exact .inr hm)
          simp only [Queue.refreshFields]
          rw [if_neg (by simp [hch])]
          exact ih hrest sn g
      | NtsEpisode a b c d e f k =>
          have hrest : ch ∉ freshChannels rest := by
            intro hm
            exact h (by simp [freshChannels] at hm ⊢; exact hm)
          simp only [Queue.refreshFields]
          exact ih hrest sn g
      | NtsMixtape a b c d =>
          have hrest : ch ∉ freshChannels rest := by
            intro hm
            exact h (by simp [freshChannels] at hm ⊢; exact hm)
          simp only [Queue.refreshFields]
          exact ih hrest sn g
      | NtsShow a b c d e =>
          have hrest : ch ∉ freshChannels rest := by
            intro hm
            exact h (by simp [freshChannels] at hm ⊢; exact hm)
          simp only [Queue.refreshFields]
          exact ih hrest sn g
      | DirectUrl a b =>
          have hrest : ch ∉ freshChannels rest := by
            intro hm
            exact h (by simp [freshChannels] at hm ⊢; exact hm)
          simp only [Queue.refreshFields]
          exact ih hrest sn g
      | NtsGenre a b =>
          have hrest : ch ∉ freshChannels rest := by
            intro hm
            exact h (by simp [freshChannels] at hm ⊢; exact hm)
          simp only [Queue.refreshFields]
          exact ih hrest sn g

theorem refreshFields_spec {live : List DiscoveryItem}
    (hdup : (freshChannels live).Nodup) (ch : Nat) (sn : String) (g : List String) :
    Queue.refreshFields ch live sn g =
      match matchingFresh live ch with
      | none => (sn, g, false)
      | some (sn', g') => if sn = sn' ∧ g = g' then (sn, g, false) else (sn', g', true) := by
  induction live generalizing sn g with
  | nil => rfl
  | cons fresh rest ih =>
      cases fresh with
      | NtsLiveChannel ch' sn' bt' g' st' en' =>
          have hdup' : (freshChannels rest).Nodup ∧ ch' ∉ freshChannels rest := by
            have : freshChannels (DiscoveryItem.NtsLiveChannel ch' sn' bt' g' st' en' :: rest) =
                ch' :: freshChannels rest := by simp [freshChannels]
            rw [this] at hdup
            exact ⟨hdup.of_cons, (List.nodup_cons.mp hdup).1⟩
          by_cases hch : ch' = ch
          · subst hch
            have hmf : matchingFresh
                (DiscoveryItem.NtsLiveChannel ch' sn' bt' g' st' en' :: rest) ch' =
                  some (sn', g') := by
              simp [matchingFresh]
            rw [hmf]
            by_cases heq : sn = sn' ∧ g = g'
            · obtain ⟨h1, h2⟩ := heq
              subst h1; subst h2
              simp only [Queue.refreshFields]
              rw [if_neg (by simp)]
              rw [refreshFields_no_match hdup'.2 sn g]
              simp
            · simp only [Queue.refreshFields]
              rw [if_pos (by tauto)]
              rw [refreshFields_no_match hdup'.2 sn' g']
              simp [heq]
          · have hmf : matchingFresh
                (DiscoveryItem.NtsLiveChannel ch' sn' bt' g' st' en' :: rest) ch =
                  matchingFresh rest ch := by
              simp [matchingFresh, hch]
            rw [hmf]
            simp only [Queue.refreshFields]
            rw [if_neg (by simp [hch])]
            exact ih hdup'.1 sn g
      | NtsEpisode a b c d e f k =>
          have hdup' : (freshChannels rest).Nodup := by
            simpa [freshChannels] using hdup
          rw [show matchingFresh (DiscoveryItem.NtsEpisode a b c d e f k :: rest) ch =
              matchingFresh rest ch from by simp [matchingFresh]]
          simp only [Queue.refreshFields]
          exact ih hdup' sn g
      | NtsMixtape a b c d =>
          have hdup' : (freshChannels rest).Nodup := by
            simpa [freshChannels] using hdup
          rw [show matchingFresh (DiscoveryItem.NtsMixtape a b c d :: rest) ch =
              matchingFresh rest ch from by simp [matchingFresh]]
          simp only [Queue.refreshFields]
          exact ih hdup' sn g
      | NtsShow a b c d e =>
          have hdup' : (freshChannels rest).Nodup := by
            simpa [freshChannels] using hdup
          rw [show matchingFresh (DiscoveryItem.NtsShow a b c d e :: rest) ch =
              matchingFresh rest ch from by simp [matchingFresh]]
          simp only [Queue.refreshFields]
          exact ih hdup' sn g
      | DirectUrl a b =>
          have hdup' : (freshChannels rest).Nodup := by
            simpa [freshChannels] using hdup
          rw [show matchingFresh (DiscoveryItem.DirectUrl a b :: rest) ch =
              matchingFresh rest ch from by simp [matchingFresh]]
          simp only [Queue.refreshFields]
          exact ih hdup' sn g
      | NtsGenre a b =>
          have hdup' : (freshChannels rest).Nodup := by
            simpa [freshChannels] using hdup
          rw [show matchingFresh (DiscoveryItem.NtsGenre a b :: rest) ch =
              matchingFresh rest ch from by simp [matchingFresh]]
          simp only [Queue.refreshFields]
          exact ih hdup' sn g

theorem refreshItem_fst {live : List DiscoveryItem}
    (hdup : (freshChannels live).Nodup) (qi : QueueItem) :
    (Queue.refreshItem live qi).1 = refreshSpec live qi := by
  obtain ⟨item, url, md⟩ := qi
  cases item with
  | NtsLiveChannel ch sn bt g st en =>
      simp only [Queue.refreshItem, refreshSpec, refreshFields_spec hdup]
      cases hmf : matchingFresh live ch with
      | none => simp
      | some p =>
          obtain ⟨sn', g'⟩ := p
          by_cases heq : sn = sn' ∧ g = g'
          · obtain ⟨h1, h2⟩ := heq
            subst h1; subst h2
            simp
          · simp [heq]
  | NtsEpisode a b c d e f k => rfl
  | NtsMixtape a b c d => rfl
  | NtsShow a b c d e => rfl
  | DirectUrl a b => rfl
  | NtsGenre a b => rfl

theorem refreshItem_snd {live : List DiscoveryItem}
    (hdup : (freshChannels live).Nodup) (qi : QueueItem) :
    ((Queue.refreshItem live qi).2 = true ↔ refreshSpec live qi ≠ qi) := by
  obtain ⟨item, url, md⟩ := qi
  cases item with
  | NtsLiveChannel ch sn bt g st en =>
      simp only [Queue.refreshItem, refreshSpec, refreshFields_spec hdup]
      cases hmf : matchingFresh live ch with
      | none => simp
      | some p =>
          obtain ⟨sn', g'⟩ := p
          by_cases heq : sn = sn' ∧ g = g'
          · obtain ⟨h1, h2⟩ := heq
            subst h1; subst h2
            simp
          · simp only [heq, if_false]
            constructor
            · intro _ hcontra
              have := congrArg QueueItem.item hcontra
              simp at this
              exact heq ⟨this.1.symm, this.2.symm⟩
            · intro _
              trivial
  | NtsEpisode a b c d e f k => simp [Queue.refreshItem, refreshSpec]
  | NtsMixtape a b c d => simp [Queue.refreshItem, refreshSpec]
  | NtsShow a b c d e => simp [Queue.refreshItem, refreshSpec]
  | DirectUrl a b => simp [Queue.refreshItem, refreshSpec]
  | NtsGenre a b => simp [Queue.refreshItem, refreshSpec]

/-- C5: when the fresh list has at most one entry per channel number,
`update_live_channels` rewrites the queue pointwise by the spec's per-entry
refresh (so only live-channel entries whose show name or genre list differs
from their matching fresh entry change, and only in those two fields),
preserves length, order and cursor, and returns `true` iff at least one
entry was actually mutated. -/
theorem queue_update_live_channels_rules (q : Queue) (live : List DiscoveryItem)
    (hdup : (freshChannels live).Nodup) :
    (q.update_live_channels live).2.items = q.items.map (refreshSpec live) ∧
    (q.update_live_channels live).2.current_index = q.current_index ∧
    (q.update_live_channels live).2.items.length = q.items.length ∧
    ((q.update_live_channels live).1 = true ↔
      ∃ qi ∈ q.items, refreshSpec live qi ≠ qi) := by
  refine ⟨?_, rfl, ?_, ?_⟩
  · simp only [Queue.update_live_channels, List.map_map]
    exact List.map_congr_left fun qi _ => refreshItem_fst hdup qi
  · simp [Queue.update_live_channels]
  · simp only [Queue.update_live_channels, List.any_eq_true]
    constructor
    · rintro ⟨x, hx, hflag⟩
      obtain ⟨qi, hqi, rfl⟩ := List.mem_map.mp hx
      exact ⟨qi, hqi, (refreshItem_snd hdup qi).mp hflag⟩
    · rintro ⟨qi, hmem, hne⟩
      exact ⟨Queue.refreshItem live qi, List.mem_map_of_mem _ hmem,
        (refreshItem_snd hdup qi).mpr hne⟩

/-- The fresh live-channel list of the spec's end-to-end refresh scenario. -/
def freshList1 : List DiscoveryItem :=
  [.NtsLiveChannel 1 "New Show" "New Show" ["Techno"] "" ""]

/-- A queue holding live channel #1 "Old Show"/["Jazz"] and one episode. -/
def oldLiveQueue : Queue :=
  (Queue.new.add ⟨.NtsLiveChannel 1 "Old Show" "Old Show" ["Jazz"] "" "", "http://l1", none⟩).add
    sampleA

theorem queue_update_live_channels_witness :
    (freshChannels freshList1).Nodup ∧
      (oldLiveQueue.update_live_channels freshList1).2.items =
        oldLiveQueue.items.map (refreshSpec freshList1) ∧
      (oldLiveQueue.update_live_channels freshList1).1 = true :=
  ⟨by decide,
    (queue_update_live_channels_rules oldLiveQueue freshList1 (by decide)).1,
    ((queue_update_live_channels_rules oldLiveQueue freshList1 (by decide)).2.2.2).mpr
      (by decide)⟩

end Clisten
